import Mathlib

/-!
Verification development for a distributed read-through cache
(geecache-style). We give a shallow embedding of the core:
the bounded LRU store, the byte-view value type, the lazily
constructed local cache wrapper, the cache-group orchestrator,
the consistent-hash ring, and the HTTP server path handling,
translated from the Go sources under src/5_multi-nodes.
-/

namespace GeeCache

/-- Byte length of a string, modelling the Go builtin len on a string
(number of UTF-8 bytes). -/
def strLen (s : String) : Nat := s.utf8ByteSize

namespace Lru

/-- State of the bounded LRU store (lru.Cache). The doubly linked list ll
is represented as a Lean list with the front (most recently used) entry at
the head and the back (least recently used) entry at the last position.
The Go map from key to list element is represented implicitly: per the
store invariant the keys in ll are distinct, so the map lookup is the
first (unique) entry of ll with the given key. The field onEvictedLog
records, in order, the (key, value) pairs passed to the OnEvicted
callback; an absent callback simply ignores this sequence. -/
structure Cache (V : Type) where
  maxBytes : Int
  nbytes : Int
  ll : List (String × V)
  onEvictedLog : List (String × V)
deriving Repr

variable {V : Type} (vLen : V → Nat)

/-- lru.New: empty store with the given capacity. -/
def new (maxBytes : Int) : Cache V :=
  { maxBytes := maxBytes, nbytes := 0, ll := [], onEvictedLog := [] }

/-- Bytes charged for one entry: len(key) + value.Len(). -/
def entrySize (e : String × V) : Int :=
  (strLen e.1 : Int) + (vLen e.2 : Int)

/-- Sum of entry sizes over a recency list. -/
def sumBytes (ll : List (String × V)) : Int :=
  (ll.map (entrySize vLen)).sum

/-- lru.Cache.Get: on a hit, move the entry to the front (most recently
used) and return its value; on a miss, leave the store unchanged. -/
def get (c : Cache V) (key : String) : Cache V × Option V :=
  match c.ll.find? (fun e => e.1 == key) with
  | none => (c, none)
  | some kv =>
    ({ c with ll := kv :: c.ll.eraseP (fun e => e.1 == key) }, some kv.2)

/-- lru.Cache.RemoveOldest: delete the back (least recently used) entry,
decrement the byte counter by its size and record the eviction-callback
invocation; a no-op on an empty store. -/
def removeOldest (c : Cache V) : Cache V :=
  match c.ll.getLast? with
  | none => c
  | some kv =>
    { c with ll := c.ll.dropLast
           , nbytes := c.nbytes - entrySize vLen kv
           , onEvictedLog := c.onEvictedLog ++ [kv] }

/-- The eviction loop of lru.Cache.Add: while maxBytes is nonzero and the
byte counter exceeds it, call RemoveOldest. The Go loop has no fuel; we
run it with explicit fuel, and Add supplies fuel equal to the list length,
which is enough for every state reachable in the program (where nbytes is
the exact sum of entry sizes and maxBytes is nonnegative). -/
def evictFuel : Nat → Cache V → Cache V
  | 0, c => c
  | fuel + 1, c =>
    if c.maxBytes ≠ 0 ∧ c.maxBytes < c.nbytes then
      evictFuel fuel (removeOldest vLen c)
    else c

/-- lru.Cache.Add: update an existing entry in place (adjusting the byte
counter by the signed size difference and moving it to the front), or
insert a new entry at the front (charging len(key)+value.Len()); then run
the eviction loop. -/
def add (c : Cache V) (key : String) (value : V) : Cache V :=
  let c1 : Cache V :=
    match c.ll.find? (fun e => e.1 == key) with
    | some kv =>
      { c with ll := (kv.1, value) :: c.ll.eraseP (fun e => e.1 == key)
             , nbytes := c.nbytes + (vLen value : Int) - (vLen kv.2 : Int) }
    | none =>
      { c with ll := (key, value) :: c.ll
             , nbytes := c.nbytes + (strLen key : Int) + (vLen value : Int) }
  evictFuel vLen c1.ll.length c1

/-- Fold a sequence of Add operations over a freshly constructed store. -/
def applyAdds (maxBytes : Int) (ops : List (String × V)) : Cache V :=
  ops.foldl (fun c e => add vLen c e.1 e.2) (new maxBytes)

/-- Well-formedness of a store state: the keys are distinct (so the Go
map and the recency list agree) and the byte counter is the exact sum of
entry sizes. Every state reachable from lru.New satisfies this. -/
def WF (c : Cache V) : Prop :=
  (c.ll.map Prod.fst).Nodup ∧ c.nbytes = sumBytes vLen c.ll

/-- Key of the most-recently-used entry, if any. -/
def headKey (c : Cache V) : Option String :=
  c.ll.head?.map Prod.fst

end Lru

/-- ByteView: immutable view of a byte payload. Bytes are modelled as a
list of naturals. -/
structure ByteView where
  b : List Nat
deriving Repr, DecidableEq

/-- ByteView.Len: number of bytes in the view. -/
def ByteView.len (v : ByteView) : Nat := v.b.length

/-- cloneBytes: the defensive copy of a byte slice. In the functional
model a copy of an immutable list is the list itself. -/
def cloneBytes (b : List Nat) : List Nat := b

/-- ByteView.ByteSlice: a copy of the underlying bytes. -/
def ByteView.byteSlice (v : ByteView) : List Nat := cloneBytes v.b

/-- The local cache wrapper (struct cache): a lazily constructed LRU
store plus the configured capacity. The mutex is elided: the model is
sequential, matching the serialized behavior the lock enforces. -/
structure CacheW where
  lru : Option (Lru.Cache ByteView)
  cacheBytes : Int

/-- cache.add: construct the store on first write, then Add. -/
def CacheW.add (c : CacheW) (key : String) (value : ByteView) : CacheW :=
  let l := match c.lru with
    | none => Lru.new c.cacheBytes
    | some l => l
  { c with lru := some (Lru.add ByteView.len l key value) }

/-- cache.get: empty result while the store is unallocated, otherwise
the LRU Get (which updates recency on a hit). -/
def CacheW.get (c : CacheW) (key : String) : CacheW × Option ByteView :=
  match c.lru with
  | none => (c, none)
  | some l =>
    let p := Lru.get l key
    ({ c with lru := some p.1 }, p.2)

/-- Well-formedness of the wrapper: if the store is allocated it is
well-formed and carries the configured capacity. -/
def CacheW.WF (c : CacheW) : Prop :=
  match c.lru with
  | none => True
  | some l => Lru.WF ByteView.len l ∧ l.maxBytes = c.cacheBytes

/-- PeerGetter capability: fetch (group, key) from one remote peer.
Errors are modelled as strings. -/
structure PeerGetter where
  get : String → String → Except String (List Nat)

/-- PeerPicker capability: pick the remote peer responsible for a key,
or none when the key belongs to the local node or no peer applies. -/
structure PeerPicker where
  pickPeer : String → Option PeerGetter

/-- Group: a cache namespace. The data-source loader is effectful in Go;
we model it as a state-passing function over a loader-state type sigma,
so that properties about how often the loader runs are observable. -/
structure Group (σ : Type) where
  name : String
  getter : σ → String → σ × Except String (List Nat)
  mainCache : CacheW
  peers : Option PeerPicker

/-- Group.populateCache: write a loaded value into the local cache. -/
def Group.populateCache {σ} (g : Group σ) (key : String) (value : ByteView) :
    Group σ :=
  { g with mainCache := g.mainCache.add key value }

/-- Group.getFromPeer: fetch from a remote peer and wrap as a ByteView
(no defensive copy on this path). -/
def Group.getFromPeer {σ} (g : Group σ) (peer : PeerGetter) (key : String) :
    Except String ByteView :=
  match peer.get g.name key with
  | .error e => .error e
  | .ok bs => .ok ⟨bs⟩

/-- Group.getLocally: run the loader; on success wrap a defensive copy as
a ByteView, populate the local cache and return it; on failure return the
loader error unchanged. -/
def Group.getLocally {σ} (g : Group σ) (s : σ) (key : String) :
    (Group σ × σ) × Except String ByteView :=
  match g.getter s key with
  | (s', .error e) => ((g, s'), .error e)
  | (s', .ok bs) =>
    let value : ByteView := ⟨cloneBytes bs⟩
    ((g.populateCache key value, s'), .ok value)

/-- Group.load: try the peer path when a picker is registered and it
yields a peer whose fetch succeeds; otherwise fall back to the local
loader. -/
def Group.load {σ} (g : Group σ) (s : σ) (key : String) :
    (Group σ × σ) × Except String ByteView :=
  match g.peers with
  | some p =>
    match p.pickPeer key with
    | some peer =>
      match g.getFromPeer peer key with
      | .ok v => ((g, s), .ok v)
      | .error _ => g.getLocally s key
    | none => g.getLocally s key
  | none => g.getLocally s key

/-- Group.Get: reject the empty key, then local lookup (promoting
recency on a hit), then load. -/
def Group.get {σ} (g : Group σ) (s : σ) (key : String) :
    (Group σ × σ) × Except String ByteView :=
  if key = "" then ((g, s), .error "key is required")
  else
    let p := g.mainCache.get key
    match p.2 with
    | some v => (({ g with mainCache := p.1 }, s), .ok v)
    | none => g.load s key

/-- Wrap a loader so that the number of times it is invoked is recorded
alongside its own state (the call-counting loader of the spec). -/
def countingGetter {σ} (f : σ → String → σ × Except String (List Nat)) :
    σ × Nat → String → (σ × Nat) × Except String (List Nat) :=
  fun sn key =>
    let r := f sn.1 key
    ((r.1, sn.2 + 1), r.2)

/-- The condition under which Group.load falls through to the local
loader: no picker registered, picker declines, or the peer fetch fails. -/
def Group.loadGoesLocal {σ} (g : Group σ) (key : String) : Prop :=
  match g.peers with
  | none => True
  | some p =>
    match p.pickPeer key with
    | none => True
    | some peer => ∃ e, peer.get g.name key = Except.error e

namespace CHash

/-- Consistent-hash ring state (consistenthash.Map). The Go map from
virtual-node hash to real peer is modelled as an association list where
each write prepends its binding, so lookup of the first match is the
latest write, matching the overwrite semantics of the Go map. Hash
values are naturals (a Go uint32 converted to int is nonnegative). -/
structure Map where
  hash : String → Nat
  replicas : Nat
  keys : List Nat
  hashMap : List (Nat × String)

/-- consistenthash.New with an explicit hash function. -/
def new (replicas : Nat) (hash : String → Nat) : Map :=
  { hash := hash, replicas := replicas, keys := [], hashMap := [] }

/-- Lookup of a virtual-node hash in the hash-to-peer map; a missing key
yields the empty string (the Go zero value). -/
def lookupPeer (m : List (Nat × String)) (h : Nat) : String :=
  ((m.find? (fun e => e.1 == h)).map Prod.snd).getD ""

/-- sort.Ints: sort the ring ascending (modelled by insertion sort). -/
def sortInts (l : List Nat) : List Nat := l.insertionSort (· ≤ ·)

/-- Map.Add: for every supplied peer create replicas virtual nodes, each
hashed from itoa(i) concatenated with the peer name, append the hash to
the ring and record its owner; finally re-sort the ring ascending. -/
def add (m : Map) (peerList : List String) : Map :=
  let m' := peerList.foldl (fun acc key =>
    (List.range acc.replicas).foldl (fun a i =>
      { a with keys := a.keys ++ [a.hash (toString i ++ key)]
             , hashMap := (a.hash (toString i ++ key), key) :: a.hashMap })
      acc) m
  { m' with keys := sortInts m'.keys }

/-- The loop of sort.Search: binary search in [i, j) for the least index
at which the predicate holds (j when none), run on explicit fuel; the Go
loop needs at most j - i iterations and search supplies that much. -/
def searchAux (f : Nat → Bool) : Nat → Nat → Nat → Nat
  | 0, i, _ => i
  | fuel + 1, i, j =>
    if i < j then
      if f ((i + j) / 2) then searchAux f fuel i ((i + j) / 2)
      else searchAux f fuel ((i + j) / 2 + 1) j
    else i

/-- sort.Search(n, f). -/
def search (n : Nat) (f : Nat → Bool) : Nat := searchAux f n 0 n

/-- Map.Get: the empty ring yields the empty string; otherwise binary
search locates the first virtual hash at least the key hash, the index
wraps modulo the ring size, and the owning peer is returned. -/
def get (m : Map) (key : String) : String :=
  if m.keys.length = 0 then ""
  else
    lookupPeer m.hashMap
      (m.keys.getD
        (search m.keys.length
            (fun i => decide (m.hash key ≤ m.keys.getD i 0))
          % m.keys.length)
        0)

/-- Modelled from the words of the ring lookup contract in the spec:
compute the key hash, take the first virtual hash greater than or equal
to it in ring order, wrap to the smallest virtual hash when the key hash
exceeds every entry, return that virtual node owner; empty result on an
empty ring. Used only to compare Map.Get against the spec sentence. -/
def specGet (m : Map) (key : String) : String :=
  if m.keys = [] then ""
  else
    match m.keys.find? (fun k => decide (m.hash key ≤ k)) with
    | some k => lookupPeer m.hashMap k
    | none => lookupPeer m.hashMap (m.keys.headD 0)

/-- Construct a ring by a New followed by one Add with the whole peer
list, exactly as HTTPPool.Set does. -/
def buildRing (replicas : Nat) (hash : String → Nat)
    (peerList : List String) : Map :=
  add (new replicas hash) peerList

end CHash

/-- Response categories of HTTPPool.ServeHTTP. -/
inductive HResp where
  | badRequest : HResp
  | notFound : String → HResp
  | internalError : String → HResp
  | ok : List Nat → HResp
deriving Repr, DecidableEq

/-- Drop the first n characters: models the Go byte slicing of the
request path after the base path, at character level (the two agree on
ASCII base paths such as the default one). -/
def dropChars (s : String) (n : Nat) : String :=
  (s.toList.drop n).asString

/-- Split at the first slash, if any: the core of SplitN(s, sep, 2). -/
def splitFirst : List Char → Option (List Char × List Char)
  | [] => none
  | c :: cs =>
    if c = '/' then some ([], cs)
    else
      match splitFirst cs with
      | none => none
      | some (a, b) => some (c :: a, b)

/-- strings.SplitN(s, sep, 2): a single part when the separator is
absent, otherwise the part before the first separator and everything
after it (which may itself contain separators). -/
def splitN2 (s : String) : List String :=
  match splitFirst s.toList with
  | none => [s]
  | some (a, b) => [a.asString, b.asString]

/-- strings.Split on every slash; used to express the spec-side segment
count of a path remainder. -/
def splitOnSlash : List Char → List (List Char)
  | [] => [[]]
  | c :: cs =>
    if c = '/' then [] :: splitOnSlash cs
    else
      match splitOnSlash cs with
      | [] => [[c]]
      | s :: rest => (c :: s) :: rest

/-- Number of slash-separated segments of a string. -/
def segCount (s : String) : Nat := (splitOnSlash s.toList).length

/-- HTTPPool.ServeHTTP on a request path. A request outside the base
path panics in Go, modelled as none. Otherwise the remainder after the
base path is split in two at the first slash: no slash is a bad request;
else the first part names the group (unknown name is not found) and the
second is the key, served through Group.Get (internal error with the
error text on failure, the value bytes on success). The registry maps a
group name to a group with its loader state; the cache update made by
Get is server-internal and not part of the response. -/
def serveHTTP {σ : Type} (reg : String → Option (Group σ × σ))
    (basePath path : String) : Option HResp :=
  if basePath.toList.isPrefixOf path.toList then
    if (splitN2 (dropChars path basePath.length)).length ≠ 2 then
      some HResp.badRequest
    else
      match reg ((splitN2 (dropChars path basePath.length)).getD 0 "") with
      | none =>
        some (HResp.notFound
          ((splitN2 (dropChars path basePath.length)).getD 0 ""))
      | some gs =>
        match (gs.1.get gs.2
            ((splitN2 (dropChars path basePath.length)).getD 1 "")).2 with
        | Except.error e => some (HResp.internalError e)
        | Except.ok v => some (HResp.ok v.byteSlice)
  else none

section LruLemmas

variable {V : Type} (vLen : V → Nat)

theorem find?_perm {α : Type} {p : α → Bool} :
    ∀ {l : List α} {a : α}, l.find? p = some a → l.Perm (a :: l.eraseP p) := by
  intro l
  induction l with
  | nil => intro a h; simp [List.find?] at h
  | cons x xs ih =>
    intro a h
    by_cases hp : p x
    · rw [List.find?_cons_of_pos _ hp] at h
      cases h
      rw [List.eraseP_cons_of_pos hp]
    · rw [List.find?_cons_of_neg _ hp] at h
      rw [List.eraseP_cons_of_neg hp]
      exact ((ih h).cons x).trans (List.Perm.swap a x _)

theorem entrySize_nonneg (e : String × V) : 0 ≤ Lru.entrySize vLen e := by
  unfold Lru.entrySize
  positivity

theorem sumBytes_nonneg (ll : List (String × V)) : 0 ≤ Lru.sumBytes vLen ll := by
  refine List.sum_nonneg ?_
  intro x hx
  rcases List.mem_map.1 hx with ⟨e, _, rfl⟩
  exact entrySize_nonneg vLen e

theorem sumBytes_cons (e : String × V) (ll : List (String × V)) :
    Lru.sumBytes vLen (e :: ll) = Lru.entrySize vLen e + Lru.sumBytes vLen ll := by
  simp [Lru.sumBytes]

theorem sumBytes_perm {l1 l2 : List (String × V)} (h : l1.Perm l2) :
    Lru.sumBytes vLen l1 = Lru.sumBytes vLen l2 :=
  (h.map (Lru.entrySize vLen)).sum_eq

theorem removeOldest_maxBytes (c : Lru.Cache V) :
    (Lru.removeOldest vLen c).maxBytes = c.maxBytes := by
  unfold Lru.removeOldest
  cases c.ll.getLast? <;> rfl

theorem sumBytes_concat (front : List (String × V)) (e : String × V) :
    Lru.sumBytes vLen (front ++ [e]) =
      Lru.sumBytes vLen front + Lru.entrySize vLen e := by
  simp [Lru.sumBytes]

theorem removeOldest_nil (c : Lru.Cache V) (h : c.ll = []) :
    Lru.removeOldest vLen c = c := by
  unfold Lru.removeOldest
  rw [h]
  rfl

theorem removeOldest_concat (c : Lru.Cache V) (front : List (String × V))
    (e : String × V) (h : c.ll = front ++ [e]) :
    Lru.removeOldest vLen c =
      { c with ll := front
             , nbytes := c.nbytes - Lru.entrySize vLen e
             , onEvictedLog := c.onEvictedLog ++ [e] } := by
  unfold Lru.removeOldest
  rw [h, List.getLast?_concat, List.dropLast_concat]

theorem removeOldest_nbytes (c : Lru.Cache V)
    (h : c.nbytes = Lru.sumBytes vLen c.ll) :
    (Lru.removeOldest vLen c).nbytes =
      Lru.sumBytes vLen (Lru.removeOldest vLen c).ll := by
  rcases List.eq_nil_or_concat c.ll with hnil | ⟨front, e, hce⟩
  · rw [removeOldest_nil vLen c hnil]
    exact h
  · rw [List.concat_eq_append] at hce
    rw [removeOldest_concat vLen c front e hce]
    rw [h, hce, sumBytes_concat]
    ring

theorem removeOldest_nodup (c : Lru.Cache V)
    (h : (c.ll.map Prod.fst).Nodup) :
    ((Lru.removeOldest vLen c).ll.map Prod.fst).Nodup := by
  rcases List.eq_nil_or_concat c.ll with hnil | ⟨front, e, hce⟩
  · rw [removeOldest_nil vLen c hnil]
    exact h
  · rw [List.concat_eq_append] at hce
    rw [removeOldest_concat vLen c front e hce]
    rw [hce] at h
    exact ((List.sublist_append_left front [e]).map Prod.fst).nodup h

theorem removeOldest_WF (c : Lru.Cache V) (h : Lru.WF vLen c) :
    Lru.WF vLen (Lru.removeOldest vLen c) :=
  ⟨removeOldest_nodup vLen c h.1, removeOldest_nbytes vLen c h.2⟩

theorem evictFuel_maxBytes (fuel : Nat) (c : Lru.Cache V) :
    (Lru.evictFuel vLen fuel c).maxBytes = c.maxBytes := by
  induction fuel generalizing c with
  | zero => rfl
  | succ n ih =>
    unfold Lru.evictFuel
    split
    · rw [ih, removeOldest_maxBytes]
    · rfl

theorem evictFuel_WF (fuel : Nat) (c : Lru.Cache V) (h : Lru.WF vLen c) :
    Lru.WF vLen (Lru.evictFuel vLen fuel c) := by
  induction fuel generalizing c with
  | zero => exact h
  | succ n ih =>
    unfold Lru.evictFuel
    split
    · exact ih _ (removeOldest_WF vLen c h)
    · exact h

theorem evictFuel_le (fuel : Nat) (c : Lru.Cache V)
    (hpos : 0 < c.maxBytes) (hsum : c.nbytes = Lru.sumBytes vLen c.ll)
    (hfuel : c.ll.length ≤ fuel) :
    (Lru.evictFuel vLen fuel c).nbytes ≤ c.maxBytes := by
  induction fuel generalizing c with
  | zero =>
    have : c.ll = [] := List.length_eq_zero.1 (Nat.le_zero.1 hfuel)
    have : c.nbytes = 0 := by simp [hsum, this, Lru.sumBytes]
    simpa [Lru.evictFuel, this] using le_of_lt hpos
  | succ n ih =>
    unfold Lru.evictFuel
    split
    · rename_i hc
      have hne : c.ll ≠ [] := by
        intro hnil
        have : c.nbytes = 0 := by simp [hsum, hnil, Lru.sumBytes]
        omega
      rcases List.eq_nil_or_concat c.ll with hnil | ⟨front, e, hce⟩
      · exact absurd hnil hne
      · rw [List.concat_eq_append] at hce
        have h1 : (Lru.removeOldest vLen c).ll.length ≤ n := by
          rw [removeOldest_concat vLen c front e hce]
          have : c.ll.length ≤ n + 1 := hfuel
          rw [hce, List.length_append] at this
          simpa using Nat.le_of_succ_le_succ (by simpa using this)
        have h2 := ih (Lru.removeOldest vLen c)
          (by rwa [removeOldest_maxBytes]) (removeOldest_nbytes vLen c hsum) h1
        rwa [removeOldest_maxBytes] at h2
    · rename_i hc
      push_neg at hc
      exact hc (Int.ne_of_gt hpos)

theorem beq_key {V : Type} {kv : String × V} {key : String}
    (h : (kv.1 == key) = true) : kv.1 = key := eq_of_beq h

theorem add_insert_step (c : Lru.Cache V) (key : String) (value : V)
    (h : Lru.WF vLen c) :
    ∃ rest, (Lru.add vLen c key value) =
        Lru.evictFuel vLen (((key, value) :: rest).length)
          { c with ll := (key, value) :: rest
                 , nbytes := Lru.sumBytes vLen ((key, value) :: rest) } ∧
      ((((key, value) :: rest).map Prod.fst).Nodup) := by
  cases hf : c.ll.find? (fun e => e.1 == key) with
  | none =>
    refine ⟨c.ll, ?_, ?_⟩
    · have hnb : c.nbytes + (strLen key : Int) + (vLen value : Int) =
          Lru.sumBytes vLen ((key, value) :: c.ll) := by
        rw [sumBytes_cons, h.2]
        unfold Lru.entrySize
        ring
      simp only [Lru.add, hf]
      rw [hnb]
    · refine List.nodup_cons.2 ⟨?_, h.1⟩
      intro hk
      rcases List.mem_map.1 hk with ⟨e, he, hek⟩
      have := List.find?_eq_none.1 hf e he
      simp [hek] at this
  | some kv =>
    have hkey : kv.1 = key := by
      have := List.find?_some hf
      simpa using this
    have hperm := find?_perm hf
    refine ⟨c.ll.eraseP (fun e => e.1 == key), ?_, ?_⟩
    · have hsum : c.nbytes =
          Lru.entrySize vLen kv +
            Lru.sumBytes vLen (c.ll.eraseP (fun e => e.1 == key)) := by
        rw [h.2, sumBytes_perm vLen hperm, sumBytes_cons]
      have hnb : c.nbytes + (vLen value : Int) - (vLen kv.2 : Int) =
          Lru.sumBytes vLen
            ((key, value) :: c.ll.eraseP (fun e => e.1 == key)) := by
        rw [hsum, sumBytes_cons]
        unfold Lru.entrySize
        rw [hkey]
        ring
      simp only [Lru.add, hf]
      rw [hkey, hnb]
    · have hnd : ((kv :: c.ll.eraseP (fun e => e.1 == key)).map Prod.fst).Nodup :=
        (hperm.map Prod.fst).nodup_iff.1 h.1
      simpa [hkey] using hnd

theorem add_WF (c : Lru.Cache V) (key : String) (value : V)
    (h : Lru.WF vLen c) : Lru.WF vLen (Lru.add vLen c key value) := by
  rcases add_insert_step vLen c key value h with ⟨rest, heq, hnd⟩
  rw [heq]
  exact evictFuel_WF vLen _ _ ⟨hnd, rfl⟩

theorem add_maxBytes (c : Lru.Cache V) (key : String) (value : V) :
    (Lru.add vLen c key value).maxBytes = c.maxBytes := by
  unfold Lru.add
  cases hf : c.ll.find? (fun e => e.1 == key) <;>
    simp [evictFuel_maxBytes]

theorem add_le (c : Lru.Cache V) (key : String) (value : V)
    (h : Lru.WF vLen c) (hpos : 0 < c.maxBytes) :
    (Lru.add vLen c key value).nbytes ≤ c.maxBytes := by
  rcases add_insert_step vLen c key value h with ⟨rest, heq, _⟩
  rw [heq]
  exact evictFuel_le vLen _ _ hpos rfl le_rfl

theorem applyAdds_WF (maxBytes : Int) (ops : List (String × V)) :
    Lru.WF vLen (Lru.applyAdds vLen maxBytes ops) ∧
      (Lru.applyAdds vLen maxBytes ops).maxBytes = maxBytes := by
  unfold Lru.applyAdds
  generalize hc : Lru.new maxBytes = c0
  have h0 : Lru.WF vLen c0 ∧ c0.maxBytes = maxBytes := by
    subst hc
    exact ⟨⟨List.nodup_nil, rfl⟩, rfl⟩
  clear hc
  induction ops generalizing c0 with
  | nil => exact h0
  | cons e rest ih =>
    exact ih _ ⟨add_WF vLen c0 e.1 e.2 h0.1,
      (add_maxBytes vLen c0 e.1 e.2).trans h0.2⟩

theorem applyAdds_concat (maxBytes : Int) (front : List (String × V))
    (e : String × V) :
    Lru.applyAdds vLen maxBytes (front ++ [e]) =
      Lru.add vLen (Lru.applyAdds vLen maxBytes front) e.1 e.2 := by
  unfold Lru.applyAdds
  rw [List.foldl_append]
  rfl

theorem evictFuel_stop (fuel : Nat) (c : Lru.Cache V)
    (h : ¬(c.maxBytes ≠ 0 ∧ c.maxBytes < c.nbytes)) :
    Lru.evictFuel vLen fuel c = c := by
  cases fuel with
  | zero => rfl
  | succ n =>
    unfold Lru.evictFuel
    rw [if_neg h]

theorem evictFuel_head (K : String) (v : V) :
    ∀ (fuel : Nat) (c : Lru.Cache V) (rest : List (String × V)),
    c.ll = (K, v) :: rest → c.nbytes = Lru.sumBytes vLen c.ll →
    (c.maxBytes = 0 ∨ Lru.entrySize vLen (K, v) ≤ c.maxBytes) →
    (Lru.evictFuel vLen fuel c).ll.head? = some (K, v) := by
  intro fuel
  induction fuel with
  | zero =>
    intro c rest hll _ _
    simp [Lru.evictFuel, hll]
  | succ n ih =>
    intro c rest hll hsum hfit
    unfold Lru.evictFuel
    split
    · rename_i hc
      have hfit' : Lru.entrySize vLen (K, v) ≤ c.maxBytes := by
        rcases hfit with h0 | hle
        · exact absurd h0 hc.1
        · exact hle
      rcases List.eq_nil_or_concat rest with hnil | ⟨front, e, hre⟩
      · exfalso
        rw [hnil] at hll
        rw [hsum, hll, sumBytes_cons] at hc
        have : Lru.sumBytes vLen ([] : List (String × V)) = 0 := rfl
        have hlt := hc.2
        rw [this] at hlt
        omega
      · rw [List.concat_eq_append] at hre
        have hc' : c.ll = ((K, v) :: front) ++ [e] := by
          rw [hll, hre]
          rfl
        have hro := removeOldest_concat vLen c ((K, v) :: front) e hc'
        refine ih (Lru.removeOldest vLen c) front ?_ ?_ ?_
        · rw [hro]
        · rw [hro]
          have : c.nbytes = Lru.sumBytes vLen ((K, v) :: front) +
              Lru.entrySize vLen e := by
            rw [hsum, hc', sumBytes_concat]
          simp only [this]
          ring
        · rw [hro]
          exact hfit
    · rw [hll]
      rfl

theorem add_head (c : Lru.Cache V) (key : String) (value : V)
    (h : Lru.WF vLen c)
    (hfit : c.maxBytes = 0 ∨ Lru.entrySize vLen (key, value) ≤ c.maxBytes) :
    (Lru.add vLen c key value).ll.head? = some (key, value) := by
  rcases add_insert_step vLen c key value h with ⟨rest, heq, _⟩
  rw [heq]
  exact evictFuel_head vLen key value _ _ rest rfl rfl hfit

theorem get_hit_head (c : Lru.Cache V) (key : String) (v : V)
    (h : (Lru.get c key).2 = some v) :
    Lru.headKey (Lru.get c key).1 = some key := by
  unfold Lru.get at h ⊢
  cases hf : c.ll.find? (fun e => e.1 == key) with
  | none =>
    rw [hf] at h
    simp at h
  | some kv =>
    have hkey : kv.1 = key := by
      have := List.find?_some hf
      simpa using this
    simp [Lru.headKey, hkey]

theorem get_miss_eq (c : Lru.Cache V) (key : String)
    (h : c.ll.find? (fun e => e.1 == key) = none) :
    Lru.get c key = (c, none) := by
  unfold Lru.get
  rw [h]

theorem get_isSome_of_mem (c : Lru.Cache V) (key : String)
    (h : key ∈ c.ll.map Prod.fst) : ((Lru.get c key).2).isSome = true := by
  unfold Lru.get
  cases hf : c.ll.find? (fun e => e.1 == key) with
  | none =>
    exfalso
    rcases List.mem_map.1 h with ⟨e, he, hek⟩
    have := List.find?_eq_none.1 hf e he
    simp [hek] at this
  | some kv => rfl

theorem evictFuel_zero_cap (fuel : Nat) (c : Lru.Cache V)
    (h : c.maxBytes = 0) : Lru.evictFuel vLen fuel c = c :=
  evictFuel_stop vLen fuel c (by simp [h])

theorem add_zero_cap_ll (c : Lru.Cache V) (key : String) (value : V)
    (h0 : c.maxBytes = 0) :
    (Lru.add vLen c key value).ll =
      match c.ll.find? (fun e => e.1 == key) with
      | some kv => (kv.1, value) :: c.ll.eraseP (fun e => e.1 == key)
      | none => (key, value) :: c.ll := by
  unfold Lru.add
  cases hf : c.ll.find? (fun e => e.1 == key) with
  | none =>
    show (Lru.evictFuel vLen ((key, value) :: c.ll).length
        { c with ll := (key, value) :: c.ll
               , nbytes := c.nbytes + (strLen key : Int) + (vLen value : Int)
        }).ll = (key, value) :: c.ll
    exact congrArg Lru.Cache.ll (evictFuel_zero_cap vLen _ _ (by exact h0))
  | some kv =>
    show (Lru.evictFuel vLen
        ((kv.1, value) :: c.ll.eraseP (fun e => e.1 == key)).length
        { c with ll := (kv.1, value) :: c.ll.eraseP (fun e => e.1 == key)
               , nbytes := c.nbytes + (vLen value : Int) - (vLen kv.2 : Int)
        }).ll = (kv.1, value) :: c.ll.eraseP (fun e => e.1 == key)
    exact congrArg Lru.Cache.ll (evictFuel_zero_cap vLen _ _ (by exact h0))

theorem add_log_zero_cap (c : Lru.Cache V) (key : String) (value : V)
    (h : c.maxBytes = 0) :
    (Lru.add vLen c key value).onEvictedLog = c.onEvictedLog := by
  unfold Lru.add
  cases hf : c.ll.find? (fun e => e.1 == key) with
  | none =>
    have hev := evictFuel_zero_cap vLen ((key, value) :: c.ll).length
      { c with ll := (key, value) :: c.ll
             , nbytes := c.nbytes + (strLen key : Int) + (vLen value : Int) }
      h
    show (Lru.evictFuel vLen ((key, value) :: c.ll).length
        { c with ll := (key, value) :: c.ll
               , nbytes := c.nbytes + (strLen key : Int) + (vLen value : Int)
        }).onEvictedLog = c.onEvictedLog
    rw [hev]
  | some kv =>
    have hev := evictFuel_zero_cap vLen
      ((kv.1, value) :: c.ll.eraseP (fun e => e.1 == key)).length
      { c with ll := (kv.1, value) :: c.ll.eraseP (fun e => e.1 == key)
             , nbytes := c.nbytes + (vLen value : Int) - (vLen kv.2 : Int) }
      h
    show (Lru.evictFuel vLen
        ((kv.1, value) :: c.ll.eraseP (fun e => e.1 == key)).length
        { c with ll := (kv.1, value) :: c.ll.eraseP (fun e => e.1 == key)
               , nbytes := c.nbytes + (vLen value : Int) - (vLen kv.2 : Int)
        }).onEvictedLog = c.onEvictedLog
    rw [hev]

theorem mem_keys_eraseP (l : List (String × V)) (k k' : String)
    (hne : k' ≠ k) (h : k' ∈ l.map Prod.fst) :
    k' ∈ (l.eraseP (fun e => e.1 == k)).map Prod.fst := by
  induction l with
  | nil => simp at h
  | cons x xs ih =>
    by_cases hp : (x.1 == k) = true
    · rw [@List.eraseP_cons_of_pos _ x xs (fun e => e.1 == k) hp]
      rcases List.mem_map.1 h with ⟨e, he, hek⟩
      rcases List.mem_cons.1 he with rfl | he'
      · exact absurd (hek ▸ eq_of_beq hp) hne
      · exact List.mem_map.2 ⟨e, he', hek⟩
    · rw [@List.eraseP_cons_of_neg _ x xs (fun e => e.1 == k) hp]
      rcases List.mem_map.1 h with ⟨e, he, hek⟩
      rcases List.mem_cons.1 he with rfl | he'
      · exact hek ▸ List.mem_map.2 ⟨e, List.mem_cons_self e _, rfl⟩
      · exact List.mem_cons.2 (Or.inr (ih (List.mem_map.2 ⟨e, he', hek⟩)))

theorem mem_keys_add_zero_cap (c : Lru.Cache V) (k : String) (v : V)
    (k' : String) (h0 : c.maxBytes = 0)
    (h : k' = k ∨ k' ∈ c.ll.map Prod.fst) :
    k' ∈ (Lru.add vLen c k v).ll.map Prod.fst := by
  rw [add_zero_cap_ll vLen c k v h0]
  cases hf : c.ll.find? (fun e => e.1 == k) with
  | none =>
    rcases h with rfl | hmem
    · simp
    · simp [hmem]
  | some kv =>
    have hkey : kv.1 = k := by
      have := List.find?_some hf
      simpa using this
    rcases h with rfl | hmem
    · simp [hkey]
    · by_cases hkk : k' = k
      · simp [hkk, hkey]
      · simp only [List.map_cons, List.mem_cons]
        exact Or.inr (mem_keys_eraseP c.ll k k' hkk hmem)

theorem applyAdds_zero_cap_aux (ops : List (String × V)) :
    ∀ (c : Lru.Cache V), c.maxBytes = 0 →
      (ops.foldl (fun c e => Lru.add vLen c e.1 e.2) c).onEvictedLog =
        c.onEvictedLog ∧
      ∀ k', (k' ∈ ops.map Prod.fst ∨ k' ∈ c.ll.map Prod.fst) →
        k' ∈ (ops.foldl (fun c e => Lru.add vLen c e.1 e.2) c).ll.map
          Prod.fst := by
  induction ops with
  | nil =>
    intro c _
    refine ⟨rfl, ?_⟩
    intro k' h
    rcases h with h | h
    · simp at h
    · exact h
  | cons e rest ih =>
    intro c h0
    have h0' : (Lru.add vLen c e.1 e.2).maxBytes = 0 := by
      rw [add_maxBytes]; exact h0
    rcases ih (Lru.add vLen c e.1 e.2) h0' with ⟨hlog, hmem⟩
    refine ⟨?_, ?_⟩
    · rw [List.foldl_cons, hlog, add_log_zero_cap vLen c e.1 e.2 h0]
    · intro k' h
      rw [List.foldl_cons]
      refine hmem k' ?_
      rcases h with h | h
      · rw [List.map_cons] at h
        rcases List.mem_cons.1 h with h1 | h1
        · exact Or.inr
            (mem_keys_add_zero_cap vLen c e.1 e.2 k' h0 (Or.inl h1))
        · exact Or.inl h1
      · exact Or.inr (mem_keys_add_zero_cap vLen c e.1 e.2 k' h0 (Or.inr h))

theorem evictFuel_oversize (K : String) (v : V) :
    ∀ (fuel : Nat) (c : Lru.Cache V) (rest : List (String × V)),
    c.ll = (K, v) :: rest → c.nbytes = Lru.sumBytes vLen c.ll →
    0 < c.maxBytes → c.maxBytes < Lru.entrySize vLen (K, v) →
    rest.length + 1 ≤ fuel →
    (Lru.evictFuel vLen fuel c).ll = [] ∧
    (Lru.evictFuel vLen fuel c).nbytes = 0 ∧
    (Lru.evictFuel vLen fuel c).onEvictedLog =
      c.onEvictedLog ++ c.ll.reverse := by
  intro fuel
  induction fuel with
  | zero =>
    intro c rest _ _ _ _ hlen
    omega
  | succ n ih =>
    intro c rest hll hsum hpos hbig hlen
    have hcond : c.maxBytes ≠ 0 ∧ c.maxBytes < c.nbytes := by
      refine ⟨Int.ne_of_gt hpos, ?_⟩
      have h1 : c.nbytes = Lru.entrySize vLen (K, v) +
          Lru.sumBytes vLen rest := by
        rw [hsum, hll, sumBytes_cons]
      have h2 : 0 ≤ Lru.sumBytes vLen rest := sumBytes_nonneg vLen rest
      omega
    unfold Lru.evictFuel
    rw [if_pos hcond]
    rcases List.eq_nil_or_concat rest with hnil | ⟨front, e, hre⟩
    · subst hnil
      have hc' : c.ll = ([] : List (String × V)) ++ [(K, v)] := by
        rw [hll]
        rfl
      have hro := removeOldest_concat vLen c [] (K, v) hc'
      have hnb : (Lru.removeOldest vLen c).nbytes = 0 := by
        rw [hro]
        have : c.nbytes = Lru.entrySize vLen (K, v) := by
          rw [hsum, hll, sumBytes_cons]
          have : Lru.sumBytes vLen ([] : List (String × V)) = 0 := rfl
          rw [this]
          ring
        simp only [this]
        ring
      have hstop : Lru.evictFuel vLen n (Lru.removeOldest vLen c) =
          Lru.removeOldest vLen c := by
        refine evictFuel_stop vLen n _ ?_
        rw [hnb, removeOldest_maxBytes]
        intro hcc
        omega
      rw [hstop]
      refine ⟨?_, hnb, ?_⟩
      · rw [hro]
      · rw [hro, hll]
        simp
    · rw [List.concat_eq_append] at hre
      have hc' : c.ll = ((K, v) :: front) ++ [e] := by
        rw [hll, hre]
        rfl
      have hro := removeOldest_concat vLen c ((K, v) :: front) e hc'
      have hres := ih (Lru.removeOldest vLen c) front
        (by rw [hro])
        (by
          rw [hro]
          have : c.nbytes = Lru.sumBytes vLen ((K, v) :: front) +
              Lru.entrySize vLen e := by
            rw [hsum, hc', sumBytes_concat]
          simp only [this]
          ring)
        (by rw [hro]; exact hpos)
        (by rw [hro]; exact hbig)
        (by
          rw [hre] at hlen
          simp at hlen
          omega)
      refine ⟨hres.1, hres.2.1, ?_⟩
      rw [hres.2.2, hro]
      simp only [hc', hre]
      simp [List.reverse_append]

end LruLemmas


/-- C1: for every sequence of Add operations on a bounded LRU store with
positive capacity, after each Add the byte counter is at most the
capacity, and it always equals the exact sum of len(key)+value.Len()
over the held entries. -/
theorem lru_capacity_invariant {V : Type} (vLen : V → Nat) (maxBytes : Int)
    (hpos : 0 < maxBytes) (ops : List (String × V)) :
    (Lru.applyAdds vLen maxBytes ops).nbytes ≤ maxBytes ∧
    (Lru.applyAdds vLen maxBytes ops).nbytes =
      Lru.sumBytes vLen (Lru.applyAdds vLen maxBytes ops).ll := by
  have hwf := applyAdds_WF vLen maxBytes ops
  refine ⟨?_, hwf.1.2⟩
  rcases List.eq_nil_or_concat ops with rfl | ⟨front, e, hoe⟩
  · have : (Lru.applyAdds vLen maxBytes ([] : List (String × V))).nbytes
        = 0 := rfl
    omega
  · rw [List.concat_eq_append] at hoe
    subst hoe
    rw [applyAdds_concat]
    have hwf' := applyAdds_WF vLen maxBytes front
    have := add_le vLen (Lru.applyAdds vLen maxBytes front) e.1 e.2
      hwf'.1 (by rw [hwf'.2]; exact hpos)
    rwa [hwf'.2] at this

/-- C1 witness: the capacity invariant at a concrete instance. -/
theorem lru_capacity_invariant_witness :
    (Lru.applyAdds ByteView.len 10 [("k", ByteView.mk [1])]).nbytes ≤ 10 ∧
    (Lru.applyAdds ByteView.len 10 [("k", ByteView.mk [1])]).nbytes =
      Lru.sumBytes ByteView.len
        (Lru.applyAdds ByteView.len 10 [("k", ByteView.mk [1])]).ll :=
  lru_capacity_invariant ByteView.len 10 (by decide)
    [("k", ByteView.mk [1])]

theorem get_none_of_nil {V : Type} (c : Lru.Cache V) (key : String)
    (h : c.ll = []) : (Lru.get c key).2 = none := by
  unfold Lru.get
  rw [h]
  rfl

/-- C2 counterexample: the original claim says that after every
Add(K, v) the key K is at the most-recently-used position; it fails when
the entry alone exceeds a positive capacity, because the eviction loop
then removes the freshly inserted entry itself, leaving the store empty. -/
theorem lru_recency_counterexample :
    Lru.headKey
      (Lru.add ByteView.len (Lru.new 1) "a" (ByteView.mk [0, 0]))
      ≠ some "a" := by decide

/-- C2 (amended): after a Get hit on key K, the entry K is at the
most-recently-used (front) position; after an Add of K on a well-formed
store, K is at the front provided its entry fits the capacity (capacity
zero or len(K)+v.Len() at most the capacity); and RemoveOldest always
removes the back (least-recently-used) entry, handing exactly that entry
to the eviction callback. -/
theorem lru_recency_amended {V : Type} (vLen : V → Nat) :
    (∀ (c : Lru.Cache V) (key : String) (v : V),
        (Lru.get c key).2 = some v →
        Lru.headKey (Lru.get c key).1 = some key)
    ∧ (∀ (c : Lru.Cache V) (key : String) (value : V), Lru.WF vLen c →
        (c.maxBytes = 0 ∨ Lru.entrySize vLen (key, value) ≤ c.maxBytes) →
        Lru.headKey (Lru.add vLen c key value) = some key)
    ∧ (∀ (c : Lru.Cache V) (front : List (String × V)) (e : String × V),
        c.ll = front ++ [e] →
        (Lru.removeOldest vLen c).ll = front ∧
        (Lru.removeOldest vLen c).onEvictedLog =
          c.onEvictedLog ++ [e]) := by
  refine ⟨fun c key v h => get_hit_head c key v h, ?_, ?_⟩
  · intro c key value hwf hfit
    have h := add_head vLen c key value hwf hfit
    unfold Lru.headKey
    rw [h]
    rfl
  · intro c front e h
    rw [removeOldest_concat vLen c front e h]
    exact ⟨rfl, rfl⟩

/-- C2 witness: the amended recency claim at concrete instances. -/
theorem lru_recency_amended_witness :
    Lru.headKey (Lru.get
      { maxBytes := 10, nbytes := 2, ll := [("a", ByteView.mk [5])]
      , onEvictedLog := [] } "a").1 = some "a"
    ∧ Lru.headKey (Lru.add ByteView.len
      { maxBytes := 10, nbytes := 2, ll := [("a", ByteView.mk [5])]
      , onEvictedLog := [] } "b" (ByteView.mk [7])) = some "b"
    ∧ (Lru.removeOldest ByteView.len
      { maxBytes := 10, nbytes := 2, ll := [("a", ByteView.mk [5])]
      , onEvictedLog := [] }).ll = [] :=
  ⟨(lru_recency_amended ByteView.len).1 _ "a" (ByteView.mk [5]) (by decide),
   (lru_recency_amended ByteView.len).2.1 _ "b" (ByteView.mk [7])
     ⟨by decide, by decide⟩ (by decide),
   ((lru_recency_amended ByteView.len).2.2 _ [] ("a", ByteView.mk [5])
     (by decide)).1⟩

/-- C9: with capacity zero the store is unbounded: over any sequence of
Add operations the eviction loop never runs (the eviction-callback log
stays empty) and every added key remains retrievable by Get. -/
theorem lru_zero_capacity_unbounded {V : Type} (vLen : V → Nat)
    (ops : List (String × V)) (key : String)
    (hmem : key ∈ ops.map Prod.fst) :
    ((Lru.get (Lru.applyAdds vLen 0 ops) key).2).isSome = true ∧
    (Lru.applyAdds vLen 0 ops).onEvictedLog = [] := by
  have h := applyAdds_zero_cap_aux vLen ops (Lru.new 0) rfl
  unfold Lru.applyAdds
  exact ⟨get_isSome_of_mem _ key (h.2 key (Or.inl hmem)), h.1⟩

/-- C9 witness: the zero-capacity claim at a concrete instance. -/
theorem lru_zero_capacity_unbounded_witness :
    ((Lru.get (Lru.applyAdds ByteView.len 0 [("a", ByteView.mk [1])])
        "a").2).isSome = true ∧
    (Lru.applyAdds ByteView.len 0
      [("a", ByteView.mk [1])]).onEvictedLog = [] :=
  lru_zero_capacity_unbounded ByteView.len [("a", ByteView.mk [1])] "a"
    (by decide)

/-- C10: an Add whose entry exceeds a positive capacity empties the
store: the eviction loop terminates after removing every entry including
the freshly inserted one, the byte counter ends at zero, the added key is
no longer retrievable, and the eviction callback was invoked with the
added (key, value) pair (it is the last invocation). -/
theorem lru_oversized_add_evicts_all {V : Type} (vLen : V → Nat)
    (c : Lru.Cache V) (key : String) (value : V)
    (hwf : Lru.WF vLen c) (hpos : 0 < c.maxBytes)
    (_hcap : c.nbytes ≤ c.maxBytes)
    (hbig : c.maxBytes < Lru.entrySize vLen (key, value)) :
    (Lru.add vLen c key value).ll = [] ∧
    (Lru.add vLen c key value).nbytes = 0 ∧
    (Lru.get (Lru.add vLen c key value) key).2 = none ∧
    (Lru.add vLen c key value).onEvictedLog.getLast? =
      some (key, value) := by
  rcases add_insert_step vLen c key value hwf with ⟨rest, heq, _⟩
  have hres := evictFuel_oversize vLen key value
    (((key, value) :: rest).length)
    { c with ll := (key, value) :: rest
           , nbytes := Lru.sumBytes vLen ((key, value) :: rest) }
    rest rfl rfl (by exact hpos) (by exact hbig) (by simp)
  rw [heq]
  refine ⟨hres.1, hres.2.1, get_none_of_nil _ key hres.1, ?_⟩
  rw [hres.2.2]
  show (c.onEvictedLog ++ ((key, value) :: rest).reverse).getLast?
    = some (key, value)
  rw [List.reverse_cons, ← List.append_assoc]
  exact List.getLast?_concat _

section GroupLemmas

theorem get_of_head {V : Type} (c : Lru.Cache V) (key : String) (v : V)
    (h : c.ll.head? = some (key, v)) : (Lru.get c key).2 = some v := by
  unfold Lru.get
  cases hll : c.ll with
  | nil => rw [hll] at h; simp at h
  | cons x xs =>
    rw [hll] at h
    simp only [List.head?_cons, Option.some.injEq] at h
    subst h
    rw [List.find?_cons_of_pos _ (by simp)]

theorem cacheW_add_get (mc : CacheW) (key : String) (v : ByteView)
    (hwf : mc.WF)
    (hfit : mc.cacheBytes = 0 ∨
      Lru.entrySize ByteView.len (key, v) ≤ mc.cacheBytes) :
    ((mc.add key v).get key).2 = some v := by
  unfold CacheW.add CacheW.get
  cases hl : mc.lru with
  | none =>
    apply get_of_head
    refine add_head ByteView.len (Lru.new mc.cacheBytes) key v
      ⟨List.Pairwise.nil, rfl⟩ ?_
    exact hfit
  | some l =>
    unfold CacheW.WF at hwf
    rw [hl] at hwf
    apply get_of_head
    refine add_head ByteView.len l key v hwf.1 ?_
    rw [hwf.2]
    exact hfit

theorem group_get_miss {σ : Type} (g : Group σ) (s : σ) (key : String)
    (hk : key ≠ "") (hmiss : (g.mainCache.get key).2 = none) :
    g.get s key = g.load s key := by
  unfold Group.get
  rw [if_neg hk]
  simp only [hmiss]

theorem group_get_hit {σ : Type} (g : Group σ) (s : σ) (key : String)
    (v : ByteView) (hk : key ≠ "")
    (hhit : (g.mainCache.get key).2 = some v) :
    (g.get s key).2 = Except.ok v ∧ (g.get s key).1.2 = s := by
  unfold Group.get
  rw [if_neg hk]
  simp [hhit]

theorem group_load_local {σ : Type} (g : Group σ) (s : σ) (key : String)
    (h : g.loadGoesLocal key) : g.load s key = g.getLocally s key := by
  unfold Group.load
  unfold Group.loadGoesLocal at h
  cases hp : g.peers with
  | none => rfl
  | some p =>
    simp only [hp] at h
    cases hpk : p.pickPeer key with
    | none => simp only [hpk]
    | some peer =>
      simp only [hpk] at h
      rcases h with ⟨e, he⟩
      simp only [hpk]
      unfold Group.getFromPeer
      rw [he]

theorem group_getLocally_err {σ : Type} (g : Group σ) (s s' : σ)
    (key : String) (e : String)
    (hload : g.getter s key = (s', Except.error e)) :
    g.getLocally s key = ((g, s'), Except.error e) := by
  unfold Group.getLocally
  rw [hload]

theorem group_getLocally_ok {σ : Type} (g : Group σ) (s s' : σ)
    (key : String) (bs : List Nat)
    (hload : g.getter s key = (s', Except.ok bs)) :
    g.getLocally s key =
      ((g.populateCache key (ByteView.mk bs), s'),
        Except.ok (ByteView.mk bs)) := by
  unfold Group.getLocally
  rw [hload]
  rfl

end GroupLemmas

/-- C4: on a local miss, when the registered peer picker yields a remote
peer whose fetch succeeds, Group.Get returns the remote bytes wrapped as
a ByteView and leaves the group (in particular its local cache wrapper)
completely unchanged: the remote value is not written back. -/
theorem group_remote_hit_not_cached {σ : Type} (g : Group σ) (s : σ)
    (key : String) (p : PeerPicker) (peer : PeerGetter) (bs : List Nat)
    (hk : key ≠ "")
    (hmiss : (g.mainCache.get key).2 = none)
    (hp : g.peers = some p)
    (hpk : p.pickPeer key = some peer)
    (hfetch : peer.get g.name key = Except.ok bs) :
    g.get s key = ((g, s), Except.ok (ByteView.mk bs)) := by
  rw [group_get_miss g s key hk hmiss]
  unfold Group.load
  simp only [hp, hpk]
  unfold Group.getFromPeer
  rw [hfetch]

/-- C4 witness: a concrete group with a picker whose peer serves the
bytes; Get returns them and the group is untouched. -/
theorem group_remote_hit_not_cached_witness :
    Group.get
      { name := "g"
      , getter := fun (s : Unit) _ =>
          (s, (Except.error "x" : Except String (List Nat)))
      , mainCache := { lru := none, cacheBytes := 8 }
      , peers := some
          { pickPeer := fun _ =>
              some { get := fun _ _ => Except.ok [6, 3, 0] } } }
      () "k"
      = (({ name := "g"
          , getter := fun (s : Unit) _ =>
              (s, (Except.error "x" : Except String (List Nat)))
          , mainCache := { lru := none, cacheBytes := 8 }
          , peers := some
              { pickPeer := fun _ =>
                  some { get := fun _ _ => Except.ok [6, 3, 0] } } }, ()),
        Except.ok (ByteView.mk [6, 3, 0])) :=
  group_remote_hit_not_cached _ () "k"
    { pickPeer := fun _ => some { get := fun _ _ => Except.ok [6, 3, 0] } }
    { get := fun _ _ => Except.ok [6, 3, 0] } [6, 3, 0]
    (by decide) rfl rfl rfl rfl

/-- C7: on a local miss with no usable peer, when the data-source loader
fails, Group.Get returns the loader error verbatim and the group (in
particular its local cache wrapper) is unchanged: no entry is added. -/
theorem group_load_error_propagates {σ : Type} (g : Group σ) (s s' : σ)
    (key : String) (e : String)
    (hk : key ≠ "")
    (hmiss : (g.mainCache.get key).2 = none)
    (hlocal : g.loadGoesLocal key)
    (hload : g.getter s key = (s', Except.error e)) :
    g.get s key = ((g, s'), Except.error e) := by
  rw [group_get_miss g s key hk hmiss,
    group_load_local g s key hlocal,
    group_getLocally_err g s s' key e hload]

/-- C7 witness: a concrete group whose loader fails; the error string is
returned as is and the group is untouched. -/
theorem group_load_error_propagates_witness :
    Group.get
      { name := "g"
      , getter := fun (s : Unit) _ =>
          (s, (Except.error "boom" : Except String (List Nat)))
      , mainCache := { lru := none, cacheBytes := 8 }
      , peers := none }
      () "k"
      = (({ name := "g"
          , getter := fun (s : Unit) _ =>
              (s, (Except.error "boom" : Except String (List Nat)))
          , mainCache := { lru := none, cacheBytes := 8 }
          , peers := none }, ()),
        Except.error "boom") :=
  group_load_error_propagates _ () () "k" "boom" (by decide) rfl
    trivial rfl

/-- C6 counterexample: the original claim says that for every group with
no peer picker, two consecutive Gets of a key whose load succeeds call
the loader exactly once; with a capacity too small for the entry the
freshly cached value is evicted at once and the loader runs twice (the
recorded call counter ends at 2). -/
theorem group_load_once_counterexample :
    ((Group.get
        (Group.get
          { name := "g"
          , getter := countingGetter (fun (s : Unit) _ => (s, Except.ok [7, 7]))
          , mainCache := { lru := none, cacheBytes := 1 }
          , peers := none }
          ((), 0) "a").1.1
        (Group.get
          { name := "g"
          , getter := countingGetter (fun (s : Unit) _ => (s, Except.ok [7, 7]))
          , mainCache := { lru := none, cacheBytes := 1 }
          , peers := none }
          ((), 0) "a").1.2
        "a").1.2).2 = 2 := by
  rfl

/-- C6 (amended): for a group with no peer picker, a well-formed local
cache wrapper, a key that misses the cache, and a loader success whose
entry fits the capacity (capacity zero or len(key)+len(bytes) at most
the capacity), two consecutive Gets call the loader exactly once: the
first call loads, caches and returns the value with the call counter
incremented to one; the second call is a cache hit returning the same
value with the counter unchanged. -/
theorem group_load_once_amended {σ : Type} (g : Group (σ × Nat))
    (f : σ → String → σ × Except String (List Nat))
    (s s' : σ) (n0 : Nat) (key : String) (bs : List Nat)
    (hg : g.getter = countingGetter f)
    (hpeers : g.peers = none)
    (hwf : g.mainCache.WF)
    (hmiss : (g.mainCache.get key).2 = none)
    (hk : key ≠ "")
    (hload : f s key = (s', Except.ok bs))
    (hfit : g.mainCache.cacheBytes = 0 ∨
      (strLen key : Int) + (bs.length : Int) ≤ g.mainCache.cacheBytes) :
    (g.get (s, n0) key).2 = Except.ok (ByteView.mk bs) ∧
    ((g.get (s, n0) key).1.2).2 = n0 + 1 ∧
    (Group.get (g.get (s, n0) key).1.1 (g.get (s, n0) key).1.2 key).2 =
      Except.ok (ByteView.mk bs) ∧
    ((Group.get (g.get (s, n0) key).1.1
        (g.get (s, n0) key).1.2 key).1.2).2 = n0 + 1 := by
  have hget : g.getter (s, n0) key = ((s', n0 + 1), Except.ok bs) := by
    rw [hg]
    unfold countingGetter
    rw [hload]
  have h1 : g.get (s, n0) key =
      ((g.populateCache key (ByteView.mk bs), (s', n0 + 1)),
        Except.ok (ByteView.mk bs)) := by
    rw [group_get_miss g (s, n0) key hk hmiss,
      group_load_local g (s, n0) key
        (by unfold Group.loadGoesLocal; rw [hpeers]; trivial),
      group_getLocally_ok g (s, n0) (s', n0 + 1) key bs hget]
  have hhit2 : ((g.populateCache key (ByteView.mk bs)).mainCache.get
      key).2 = some (ByteView.mk bs) := by
    unfold Group.populateCache
    exact cacheW_add_get g.mainCache key (ByteView.mk bs) hwf hfit
  have h2 := group_get_hit (g.populateCache key (ByteView.mk bs))
    (s', n0 + 1) key (ByteView.mk bs) hk hhit2
  refine ⟨by rw [h1], by rw [h1], ?_, ?_⟩
  · rw [h1]
    exact h2.1
  · rw [h1]
    rw [congrArg Prod.snd h2.2]

/-- C6 witness: the amended load-once claim at a concrete instance. -/
theorem group_load_once_amended_witness :
    (Group.get
      { name := "g"
      , getter := countingGetter (fun (s : Unit) _ => (s, Except.ok [9]))
      , mainCache := { lru := none, cacheBytes := 0 }
      , peers := none } ((), 0) "a").2 = Except.ok (ByteView.mk [9]) ∧
    ((Group.get
      { name := "g"
      , getter := countingGetter (fun (s : Unit) _ => (s, Except.ok [9]))
      , mainCache := { lru := none, cacheBytes := 0 }
      , peers := none } ((), 0) "a").1.2).2 = 0 + 1 ∧
    (Group.get
      (Group.get
        { name := "g"
        , getter := countingGetter (fun (s : Unit) _ => (s, Except.ok [9]))
        , mainCache := { lru := none, cacheBytes := 0 }
        , peers := none } ((), 0) "a").1.1
      (Group.get
        { name := "g"
        , getter := countingGetter (fun (s : Unit) _ => (s, Except.ok [9]))
        , mainCache := { lru := none, cacheBytes := 0 }
        , peers := none } ((), 0) "a").1.2 "a").2
      = Except.ok (ByteView.mk [9]) ∧
    ((Group.get
      (Group.get
        { name := "g"
        , getter := countingGetter (fun (s : Unit) _ => (s, Except.ok [9]))
        , mainCache := { lru := none, cacheBytes := 0 }
        , peers := none } ((), 0) "a").1.1
      (Group.get
        { name := "g"
        , getter := countingGetter (fun (s : Unit) _ => (s, Except.ok [9]))
        , mainCache := { lru := none, cacheBytes := 0 }
        , peers := none } ((), 0) "a").1.2 "a").1.2).2 = 0 + 1 :=
  group_load_once_amended _ (fun (s : Unit) _ => (s, Except.ok [9]))
    () () 0 "a" [9] rfl rfl trivial rfl (by decide) rfl (Or.inl rfl)

section CHashLemmas

theorem searchAux_spec (f : Nat → Bool) (n : Nat)
    (mono : ∀ a b : Nat, a ≤ b → b < n → f a = true → f b = true) :
    ∀ (fuel i j : Nat), i ≤ j → j ≤ n → j - i ≤ fuel →
      (∀ k, k < i → f k = false) →
      (∀ k, j ≤ k → k < n → f k = true) →
      i ≤ CHash.searchAux f fuel i j ∧ CHash.searchAux f fuel i j ≤ j ∧
      (∀ k, k < CHash.searchAux f fuel i j → f k = false) ∧
      (CHash.searchAux f fuel i j < n →
        f (CHash.searchAux f fuel i j) = true) := by
  intro fuel
  induction fuel with
  | zero =>
    intro i j hij hjn hfu hlow hhigh
    have hij' : i = j := by omega
    subst hij'
    exact ⟨le_rfl, le_rfl, hlow, fun hn => hhigh i le_rfl hn⟩
  | succ m ih =>
    intro i j hij hjn hfu hlow hhigh
    unfold CHash.searchAux
    by_cases hij2 : i < j
    · rw [if_pos hij2]
      have hmi : i ≤ (i + j) / 2 := by omega
      have hmj : (i + j) / 2 < j := by omega
      by_cases hf : f ((i + j) / 2) = true
      · rw [if_pos hf]
        have hres := ih i ((i + j) / 2) hmi (by omega) (by omega) hlow
          (fun k hk1 hk2 => mono _ _ hk1 hk2 hf)
        exact ⟨hres.1, le_trans hres.2.1 (le_of_lt hmj), hres.2.2.1,
          hres.2.2.2⟩
      · rw [if_neg hf]
        have hres := ih ((i + j) / 2 + 1) j (by omega) hjn (by omega)
          ?_ hhigh
        · exact ⟨by omega, hres.2.1, hres.2.2.1, hres.2.2.2⟩
        · intro k hk
          by_cases hki : k < i
          · exact hlow k hki
          · cases hfkb : f k with
            | false => rfl
            | true =>
              exfalso
              exact hf (mono k ((i + j) / 2) (by omega) (by omega) hfkb)
    · rw [if_neg hij2]
      have hij' : i = j := by omega
      subst hij'
      exact ⟨le_rfl, le_rfl, hlow, fun hn => hhigh i le_rfl hn⟩

theorem find?_of_least (p : Nat → Bool) :
    ∀ (l : List Nat) (r : Nat), r ≤ l.length →
      (∀ k, k < r → p (l.getD k 0) = false) →
      (r < l.length → p (l.getD r 0) = true) →
      l.find? p = if r < l.length then some (l.getD r 0) else none := by
  intro l
  induction l with
  | nil =>
    intro r hr _ _
    have : r = 0 := by simpa using hr
    subst this
    simp [List.find?]
  | cons x xs ih =>
    intro r hr hlow hhigh
    cases r with
    | zero =>
      have hx : p x = true := by simpa using hhigh (by simp)
      rw [List.find?_cons_of_pos _ hx]
      simp
    | succ r' =>
      have hx : p x = false := by simpa using hlow 0 (Nat.succ_pos r')
      rw [List.find?_cons_of_neg _ (by simp [hx])]
      have hrec := ih r' (by simpa using hr)
        (fun k hk => by simpa using hlow (k + 1) (by omega))
        (fun hlt => by simpa using hhigh (by simpa using hlt))
      rw [hrec]
      by_cases hlt : r' < xs.length
      · rw [if_pos hlt, if_pos (by simpa using hlt)]
        simp
      · rw [if_neg hlt,
          if_neg (by simp only [List.length_cons]; omega)]

theorem sorted_getD_mono (keys : List Nat)
    (hs : keys.Sorted (· ≤ ·)) (a b : Nat) (hab : a ≤ b)
    (hbn : b < keys.length) : keys.getD a 0 ≤ keys.getD b 0 := by
  rcases Nat.eq_or_lt_of_le hab with rfl | hlt
  · exact le_rfl
  · have han : a < keys.length := lt_trans hlt hbn
    have := (List.pairwise_iff_get.1 hs) ⟨a, han⟩ ⟨b, hbn⟩ hlt
    rwa [List.getD_eq_get keys 0 han, List.getD_eq_get keys 0 hbn]

theorem chash_add_sorted (m : CHash.Map) (peerList : List String) :
    (CHash.add m peerList).keys.Sorted (· ≤ ·) :=
  List.sorted_insertionSort (· ≤ ·) _

theorem getD_zero_eq_headD (l : List Nat) : l.getD 0 0 = l.headD 0 := by
  cases l <;> rfl

end CHashLemmas

/-- C3: on a ring whose virtual-hash list is sorted ascending (as Map.Add
maintains), Map.Get computes the key hash, binary-searches the first
virtual hash greater than or equal to it, wraps to the smallest virtual
hash when the key hash exceeds every entry, and returns the owner of
that virtual node — exactly the spec-side description specGet; and the
empty ring yields the empty string for every key. -/
theorem chash_get_spec (m : CHash.Map) (hs : m.keys.Sorted (· ≤ ·)) :
    (∀ key, CHash.get m key = CHash.specGet m key) ∧
    (m.keys = [] → ∀ key, CHash.get m key = "") := by
  constructor
  · intro key
    unfold CHash.get CHash.specGet
    by_cases hnil : m.keys = []
    · rw [if_pos (by simp [hnil]), if_pos hnil]
    · have hlen0 : m.keys.length ≠ 0 := by
        simpa using fun h => hnil (List.length_eq_zero.1 h)
      rw [if_neg hlen0, if_neg hnil]
      have hmono : ∀ a b : Nat, a ≤ b → b < m.keys.length →
          (decide (m.hash key ≤ m.keys.getD a 0)) = true →
          (decide (m.hash key ≤ m.keys.getD b 0)) = true := by
        intro a b hab hbn hd
        exact decide_eq_true
          (le_trans (of_decide_eq_true hd)
            (sorted_getD_mono m.keys hs a b hab hbn))
      have hspec := searchAux_spec
        (fun i => decide (m.hash key ≤ m.keys.getD i 0)) m.keys.length
        hmono m.keys.length 0 m.keys.length (by omega) le_rfl (by omega)
        (fun k hk => absurd hk (Nat.not_lt_zero k))
        (fun k hk1 hk2 => absurd hk2 (by omega))
      obtain ⟨_, hle, hlow, hhigh⟩ := hspec
      have hfind := find?_of_least (fun k => decide (m.hash key ≤ k))
        m.keys
        (CHash.search m.keys.length
          (fun i => decide (m.hash key ≤ m.keys.getD i 0)))
        hle hlow hhigh
      by_cases hlt : CHash.search m.keys.length
          (fun i => decide (m.hash key ≤ m.keys.getD i 0)) <
            m.keys.length
      · rw [if_pos hlt] at hfind
        rw [hfind, Nat.mod_eq_of_lt hlt]
      · rw [if_neg hlt] at hfind
        rw [hfind]
        have : CHash.search m.keys.length
            (fun i => decide (m.hash key ≤ m.keys.getD i 0)) =
              m.keys.length := le_antisymm hle (Nat.not_lt.1 hlt)
        rw [this, Nat.mod_self, getD_zero_eq_headD]
  · intro h key
    unfold CHash.get
    rw [if_pos (by simp [h])]

/-- C3 witness: the lookup agreement at a concrete sorted ring where the
key hash exceeds every virtual hash, exercising the wrap-around. -/
theorem chash_get_spec_witness :
    CHash.get
      { hash := fun _ => 25, replicas := 2, keys := [10, 20]
      , hashMap := [(10, "A"), (20, "B")] } "x"
      = CHash.specGet
        { hash := fun _ => 25, replicas := 2, keys := [10, 20]
        , hashMap := [(10, "A"), (20, "B")] } "x" :=
  (chash_get_spec
    { hash := fun _ => 25, replicas := 2, keys := [10, 20]
    , hashMap := [(10, "A"), (20, "B")] } (by decide)).1 "x"

/-- C8: ring lookup is deterministic: two rings built by New followed by
Add of the same peer list under the same replica count and hash function
agree on Get for every key, and repeated Get calls on one ring return
the same peer. -/
theorem chash_determinism (replicas : Nat) (hash : String → Nat)
    (peerList : List String) (m1 m2 : CHash.Map)
    (h1 : m1 = CHash.buildRing replicas hash peerList)
    (h2 : m2 = CHash.buildRing replicas hash peerList) :
    ∀ key, CHash.get m1 key = CHash.get m2 key ∧
      CHash.get m1 key = CHash.get m1 key := by
  subst h1
  subst h2
  exact fun key => ⟨rfl, rfl⟩

/-- C8 witness: determinism at a concrete ring and key. -/
theorem chash_determinism_witness :
    CHash.get (CHash.buildRing 2 strLen ["A", "B"]) "x"
      = CHash.get (CHash.buildRing 2 strLen ["A", "B"]) "x" ∧
    CHash.get (CHash.buildRing 2 strLen ["A", "B"]) "x"
      = CHash.get (CHash.buildRing 2 strLen ["A", "B"]) "x" :=
  chash_determinism 2 strLen ["A", "B"] _ _ rfl rfl "x"

section HttpLemmas

theorem splitFirst_none_of_not_mem :
    ∀ (l : List Char), '/' ∉ l → splitFirst l = none := by
  intro l
  induction l with
  | nil => intro _; rfl
  | cons c cs ih =>
    intro h
    have hc : ¬(c = '/') := by
      intro hcc
      subst hcc
      exact h (List.mem_cons_self _ _)
    unfold splitFirst
    rw [if_neg hc, ih (fun hm => h (List.mem_cons.2 (Or.inr hm)))]

theorem not_mem_of_splitFirst_none :
    ∀ (l : List Char), splitFirst l = none → '/' ∉ l := by
  intro l
  induction l with
  | nil => intro _ hm; simp at hm
  | cons c cs ih =>
    intro h hm
    unfold splitFirst at h
    by_cases hc : c = '/'
    · rw [if_pos hc] at h
      exact absurd h (by simp)
    · rw [if_neg hc] at h
      rcases List.mem_cons.1 hm with h1 | h1
      · exact hc h1.symm
      · cases hs : splitFirst cs with
        | none => exact ih hs h1
        | some ab =>
          obtain ⟨a, b⟩ := ab
          rw [hs] at h
          simp at h

theorem splitOnSlash_ne_nil : ∀ (l : List Char), splitOnSlash l ≠ [] := by
  intro l
  induction l with
  | nil => simp [splitOnSlash]
  | cons c cs ih =>
    unfold splitOnSlash
    by_cases hc : c = '/'
    · rw [if_pos hc]
      simp
    · rw [if_neg hc]
      cases hs : splitOnSlash cs with
      | nil => simp
      | cons s rest => simp

theorem segCount_one_iff :
    ∀ (l : List Char), (splitOnSlash l).length = 1 ↔ '/' ∉ l := by
  intro l
  induction l with
  | nil => simp [splitOnSlash]
  | cons c cs ih =>
    unfold splitOnSlash
    by_cases hc : c = '/'
    · rw [if_pos hc]
      subst hc
      constructor
      · intro h
        exfalso
        have hne := splitOnSlash_ne_nil cs
        simp only [List.length_cons, Nat.add_eq_right] at h
        exact hne (List.length_eq_zero.1 h)
      · intro h
        exact absurd (List.mem_cons_self '/' cs) h
    · rw [if_neg hc]
      cases hs : splitOnSlash cs with
      | nil => exact absurd hs (splitOnSlash_ne_nil cs)
      | cons s rest =>
        constructor
        · intro h hm
          rcases List.mem_cons.1 hm with h1 | h1
          · exact hc h1.symm
          · have hlen : (splitOnSlash cs).length = 1 := by
              rw [hs]
              simpa using h
            exact (ih.1 hlen) h1
        · intro h
          have hnm : '/' ∉ cs := fun hm => h (List.mem_cons.2 (Or.inr hm))
          have h2 := ih.2 hnm
          rw [hs] at h2
          simpa using h2

end HttpLemmas

/-- C5 counterexample: the original claim says that a remainder with any
segment count other than two yields the bad-request status; but the
server splits only at the first slash, so the three-segment remainder
g/k1/k2 is parsed as group g with key k1/k2 and, with no group
registered, produces not-found rather than bad-request. -/
theorem serveHTTP_counterexample :
    serveHTTP (fun _ => (none : Option (Group Unit × Unit)))
      "/_geecache/" "/_geecache/g/k1/k2" = some (HResp.notFound "g") ∧
    segCount "g/k1/k2" = 3 :=
  ⟨rfl, rfl⟩

/-- C5 (amended): for a request path carrying the base path, the server
answers bad-request exactly when the remainder after the base path has
no slash (fewer than two segments); a remainder with two or more
segments is parsed as group name up to the first slash and key
everything after it (so extra slashes become part of the key), never a
bad request. -/
theorem serveHTTP_badRequest_iff {σ : Type}
    (reg : String → Option (Group σ × σ)) (basePath path : String)
    (hpre : basePath.toList.isPrefixOf path.toList = true) :
    (serveHTTP reg basePath path = some HResp.badRequest ↔
      segCount (dropChars path basePath.length) = 1) := by
  unfold serveHTTP
  rw [if_pos hpre]
  cases hs : splitFirst (dropChars path basePath.length).toList with
  | none =>
    have hp : splitN2 (dropChars path basePath.length) =
        [dropChars path basePath.length] := by
      unfold splitN2
      rw [hs]
    rw [hp, if_pos (by simp)]
    constructor
    · intro _
      exact (segCount_one_iff _).2 (not_mem_of_splitFirst_none _ hs)
    · intro _
      rfl
  | some ab =>
    obtain ⟨a, b⟩ := ab
    have hp : splitN2 (dropChars path basePath.length) =
        [a.asString, b.asString] := by
      unfold splitN2
      rw [hs]
    rw [hp, if_neg (by simp)]
    have hseg : segCount (dropChars path basePath.length) ≠ 1 := by
      intro h1
      have hmem := (segCount_one_iff _).1 h1
      rw [splitFirst_none_of_not_mem _ hmem] at hs
      exact absurd hs (by simp)
    constructor
    · intro h
      exfalso
      cases hr : reg ([a.asString, b.asString].getD 0 "") with
      | none =>
        rw [hr] at h
        simp at h
      | some gs =>
        rw [hr] at h
        have h' : (match (gs.1.get gs.2
              ([a.asString, b.asString].getD 1 "")).2 with
            | Except.error e => some (HResp.internalError e)
            | Except.ok v => some (HResp.ok v.byteSlice))
            = some HResp.badRequest := h
        cases he : (gs.1.get gs.2
            ([a.asString, b.asString].getD 1 "")).2 with
        | error e =>
          rw [he] at h'
          simp at h'
        | ok v =>
          rw [he] at h'
          simp at h'
    · intro h
      exact absurd h hseg

/-- C5 witness: the amended parsing rule at a concrete path whose
remainder has a single segment. -/
theorem serveHTTP_badRequest_iff_witness :
    (serveHTTP (fun _ => (none : Option (Group Unit × Unit)))
        "/_geecache/" "/_geecache/gk" = some HResp.badRequest ↔
      segCount (dropChars "/_geecache/gk" "/_geecache/".length) = 1) :=
  serveHTTP_badRequest_iff (fun _ => none) "/_geecache/" "/_geecache/gk"
    rfl

/-- C10 witness: the oversized-Add claim at a concrete instance. -/
theorem lru_oversized_add_evicts_all_witness :
    (Lru.add ByteView.len
      { maxBytes := 5, nbytes := 2, ll := [("a", ByteView.mk [1])]
      , onEvictedLog := [] } "bb" (ByteView.mk [3, 3, 3, 3])).ll = [] ∧
    (Lru.add ByteView.len
      { maxBytes := 5, nbytes := 2, ll := [("a", ByteView.mk [1])]
      , onEvictedLog := [] } "bb" (ByteView.mk [3, 3, 3, 3])).nbytes = 0 ∧
    (Lru.get (Lru.add ByteView.len
      { maxBytes := 5, nbytes := 2, ll := [("a", ByteView.mk [1])]
      , onEvictedLog := [] } "bb" (ByteView.mk [3, 3, 3, 3])) "bb").2
      = none ∧
    (Lru.add ByteView.len
      { maxBytes := 5, nbytes := 2, ll := [("a", ByteView.mk [1])]
      , onEvictedLog := [] } "bb"
      (ByteView.mk [3, 3, 3, 3])).onEvictedLog.getLast?
      = some ("bb", ByteView.mk [3, 3, 3, 3]) :=
  lru_oversized_add_evicts_all ByteView.len
    { maxBytes := 5, nbytes := 2, ll := [("a", ByteView.mk [1])]
    , onEvictedLog := [] } "bb" (ByteView.mk [3, 3, 3, 3])
    ⟨by decide, by decide⟩ (by decide) (by decide) (by decide)

end GeeCache
